import Mathlib

/-!
Shallow embedding of the encrypted-span / placeholder pipeline of
`script/utils.py` from the sandboxed-library-template repository.

Python `str` values are modelled as `List Char`; Python `bytes` values as
`List Nat` (each element `< 256` where it matters).  The two fixed regular
expressions of the source (`VERSIONED_TAG_PATTERN`,
`ANY_ENCRYPTED_TAG_PATTERN`, `ENV_PLACEHOLDER_PATTERN`) are deterministic
(no backtracking can change the match), and are embedded as explicit
scanners; `re.sub` is embedded as a leftmost, non-overlapping rewrite
that never rescans replacement text.  The external AES-GCM primitive from
the `cryptography` package is modelled as an explicit cipher parameter.
-/

namespace LibraryTemplate

/-- Unicode whitespace as CPython defines it (`Py_UNICODE_ISSPACE`): the set
stripped by `str.strip()` and matched by the regex class `\s` on `str`. -/
def isWsChar (c : Char) : Bool :=
  c == ' ' || ('\t' ≤ c && c ≤ '\r') || ('\x1c' ≤ c && c ≤ '\x1f') ||
  c == '\x85' || c == '\xa0' || c == '\u1680' ||
  ('\u2000' ≤ c && c ≤ '\u200a') || c == '\u2028' || c == '\u2029' ||
  c == '\u202f' || c == '\u205f' || c == '\u3000'

/-- Decimal digits: models the regex class `\d`. -/
def isDigitChar (c : Char) : Bool :=
  '0' ≤ c && c ≤ '9'

/-- Python `str.strip()` (whitespace trimmed from both ends). -/
def pyStrip (s : List Char) : List Char :=
  ((s.dropWhile isWsChar).reverse.dropWhile isWsChar).reverse

/-- Match a literal at the front of the input, returning the remainder. -/
def dropLit : List Char → List Char → Option (List Char)
  | [], s => some s
  | _ :: _, [] => none
  | p :: ps, c :: cs => if p = c then dropLit ps cs else none

theorem dropLit_eq_append {lit s r : List Char} (h : dropLit lit s = some r) :
    s = lit ++ r := by
  induction lit generalizing s with
  | nil =>
    simp only [dropLit, Option.some.injEq] at h
    simp [h]
  | cons p ps ih =>
    cases s with
    | nil => simp [dropLit] at h
    | cons c cs =>
      simp only [dropLit] at h
      split at h
      · next heq => simp [← heq, ih h]
      · exact absurd h (by simp)

theorem dropLit_append (lit r : List Char) : dropLit lit (lit ++ r) = some r := by
  induction lit with
  | nil => rfl
  | cons p ps ih => simp [dropLit, ih]

theorem length_of_dropLit {lit s r : List Char} (h : dropLit lit s = some r) :
    s.length = lit.length + r.length := by
  have := congrArg List.length (dropLit_eq_append h)
  simpa using this

/-- Substring containment, modelling Python's `needle in haystack`. -/
def containsSub (pat : List Char) : List Char → Bool
  | [] => pat.isEmpty
  | c :: rest => pat.isPrefixOf (c :: rest) || containsSub pat rest

theorem isPrefixOf_append_self (pat r : List Char) :
    pat.isPrefixOf (pat ++ r) = true := by
  induction pat with
  | nil => simp [List.isPrefixOf]
  | cons p ps ih => simp [List.isPrefixOf, ih]

theorem containsSub_of_isPrefixOf {pat s : List Char}
    (h : pat.isPrefixOf s = true) : containsSub pat s = true := by
  cases s with
  | nil =>
    cases pat with
    | nil => rfl
    | cons p ps => simp [List.isPrefixOf] at h
  | cons c cs => simp only [containsSub, h, Bool.true_or]

theorem containsSub_of_append (pat pre r : List Char) :
    containsSub pat (pre ++ pat ++ r) = true := by
  induction pre with
  | nil =>
    exact containsSub_of_isPrefixOf (by simp [isPrefixOf_append_self pat r])
  | cons c cs ih =>
    show containsSub pat (c :: (cs ++ pat ++ r)) = true
    simp only [containsSub, ih, Bool.or_true]

/-!
## Base64 (Python `base64.b64encode` / `base64.b64decode`)

`b64decode` is the default (`validate=False`) behaviour of
`binascii.a2b_base64`: non-ASCII input fails, characters outside the
alphabet are skipped, bytes are emitted incrementally per quad, a
satisfied pad sequence ends decoding with everything after it ignored
(so excess padding and trailing data are accepted), and only an input
ending in a partial quad is an error.
-/

/-- The standard base64 alphabet. -/
def b64Alphabet : List Char :=
  "ABCDEFGHIJKLMNOPQRSTUVWXYZabcdefghijklmnopqrstuvwxyz0123456789+/".toList

def b64Char (n : Nat) : Char := b64Alphabet.getD n 'A'

def isB64Char (c : Char) : Bool := b64Alphabet.contains c

def b64Index (c : Char) : Nat := b64Alphabet.indexOf c

/-- Encode a byte string, emitting `=` padding (Python `base64.b64encode`). -/
def b64encode : List Nat → List Char
  | a :: b :: c :: rest =>
    b64Char (a / 4) :: b64Char ((a % 4) * 16 + b / 16) ::
      b64Char ((b % 16) * 4 + c / 64) :: b64Char (c % 64) :: b64encode rest
  | [a, b] => [b64Char (a / 4), b64Char ((a % 4) * 16 + b / 16), b64Char ((b % 16) * 4), '=']
  | [a] => [b64Char (a / 4), b64Char ((a % 4) * 16), '=', '=']
  | [] => []

/-- The quad state machine of CPython `binascii.a2b_base64` in its default
(non-strict) mode, as `base64.b64decode` invokes it: characters outside the
alphabet are skipped; a data character feeds the quad accumulator
`(quadPos, leftchar)` and resets the pad count; an `=` while `quadPos ≥ 2`
raises the pad count and, once `quadPos + pads` reaches 4, decoding stops and
everything after is ignored; an `=` while `quadPos < 2` is ignored; input
ending in a partial quad is an error. -/
def a2bLoop : List Char → Nat → Nat → Nat → Option (List Nat)
  | [], 0, _, _ => some []
  | [], _ + 1, _, _ => none
  | c :: rest, quadPos, leftchar, pads =>
    if c = '=' then
      if 2 ≤ quadPos ∧ 4 ≤ quadPos + (pads + 1) then some []
      else if 2 ≤ quadPos then a2bLoop rest quadPos leftchar (pads + 1)
      else a2bLoop rest quadPos leftchar pads
    else if isB64Char c then
      match quadPos with
      | 0 => a2bLoop rest 1 (b64Index c) 0
      | 1 => (a2bLoop rest 2 (b64Index c % 16) 0).map
          (fun bs => (leftchar * 4 + b64Index c / 16) :: bs)
      | 2 => (a2bLoop rest 3 (b64Index c % 4) 0).map
          (fun bs => (leftchar * 16 + b64Index c / 4) :: bs)
      | _ => (a2bLoop rest 0 0 0).map (fun bs => (leftchar * 64 + b64Index c) :: bs)
    else a2bLoop rest quadPos leftchar pads

/-- Python `base64.b64decode` on text (default validation): the input must be
ASCII; the rest is `binascii.a2b_base64` in non-strict mode. -/
def b64decode (s : List Char) : Option (List Nat) :=
  if s.all (fun c => c.toNat < 128) then a2bLoop s 0 0 0 else none

theorem b64Index_b64Char : ∀ n, n < 64 → b64Index (b64Char n) = n := by decide

theorem isB64Char_b64Char : ∀ n, n < 64 → isB64Char (b64Char n) = true := by decide

theorem toNat_b64Char_lt : ∀ n, n < 64 → (b64Char n).toNat < 128 := by decide

theorem b64Char_ne_lt : ∀ n, n < 64 → b64Char n ≠ '<' := by decide

theorem b64Char_ne_pad : ∀ n, n < 64 → b64Char n ≠ '=' := by decide

theorem b64encode_chars : ∀ bs : List Nat, (∀ b ∈ bs, b < 256) →
    ∀ c ∈ b64encode bs, c.toNat < 128 ∧ (isB64Char c = true ∨ c = '=') := by
  intro bs
  induction bs using b64encode.induct with
  | case1 a b c rest ih =>
    intro h x hx
    have ha : a < 256 := h a (by simp)
    have hb : b < 256 := h b (by simp)
    have hc : c < 256 := h c (by simp)
    simp only [b64encode, List.mem_cons] at hx
    rcases hx with rfl | rfl | rfl | rfl | hx
    · exact ⟨toNat_b64Char_lt _ (by omega), Or.inl (isB64Char_b64Char _ (by omega))⟩
    · exact ⟨toNat_b64Char_lt _ (by omega), Or.inl (isB64Char_b64Char _ (by omega))⟩
    · exact ⟨toNat_b64Char_lt _ (by omega), Or.inl (isB64Char_b64Char _ (by omega))⟩
    · exact ⟨toNat_b64Char_lt _ (by omega), Or.inl (isB64Char_b64Char _ (by omega))⟩
    · exact ih (fun x hx => h x (by simp [hx])) x hx
  | case2 a b =>
    intro h x hx
    have ha : a < 256 := h a (by simp)
    have hb : b < 256 := h b (by simp)
    simp only [b64encode, List.mem_cons] at hx
    rcases hx with rfl | rfl | rfl | rfl | hx
    · exact ⟨toNat_b64Char_lt _ (by omega), Or.inl (isB64Char_b64Char _ (by omega))⟩
    · exact ⟨toNat_b64Char_lt _ (by omega), Or.inl (isB64Char_b64Char _ (by omega))⟩
    · exact ⟨toNat_b64Char_lt _ (by omega), Or.inl (isB64Char_b64Char _ (by omega))⟩
    · exact ⟨by decide, Or.inr rfl⟩
    · simp at hx
  | case3 a =>
    intro h x hx
    have ha : a < 256 := h a (by simp)
    simp only [b64encode, List.mem_cons] at hx
    rcases hx with rfl | rfl | rfl | rfl | hx
    · exact ⟨toNat_b64Char_lt _ (by omega), Or.inl (isB64Char_b64Char _ (by omega))⟩
    · exact ⟨toNat_b64Char_lt _ (by omega), Or.inl (isB64Char_b64Char _ (by omega))⟩
    · exact ⟨by decide, Or.inr rfl⟩
    · exact ⟨by decide, Or.inr rfl⟩
    · simp at hx
  | case4 =>
    intro _ x hx
    simp [b64encode] at hx

theorem a2bLoop_quad (s1 s2 s3 s4 : Nat) (rest : List Char)
    (h1 : s1 < 64) (h2 : s2 < 64) (h3 : s3 < 64) (h4 : s4 < 64) :
    a2bLoop (b64Char s1 :: b64Char s2 :: b64Char s3 :: b64Char s4 :: rest) 0 0 0 =
      (a2bLoop rest 0 0 0).map (fun bs =>
        (s1 * 4 + s2 / 16) :: ((s2 % 16) * 16 + s3 / 4) :: ((s3 % 4) * 64 + s4) :: bs) := by
  simp only [a2bLoop,
    if_neg (b64Char_ne_pad s1 h1), if_neg (b64Char_ne_pad s2 h2),
    if_neg (b64Char_ne_pad s3 h3), if_neg (b64Char_ne_pad s4 h4),
    isB64Char_b64Char s1 h1, isB64Char_b64Char s2 h2,
    isB64Char_b64Char s3 h3, isB64Char_b64Char s4 h4, if_true,
    b64Index_b64Char s1 h1, b64Index_b64Char s2 h2,
    b64Index_b64Char s3 h3, b64Index_b64Char s4 h4]
  cases a2bLoop rest 0 0 0 <;> rfl

theorem a2bLoop_b64encode : ∀ bs : List Nat, (∀ b ∈ bs, b < 256) →
    a2bLoop (b64encode bs) 0 0 0 = some bs := by
  intro bs
  induction bs using b64encode.induct with
  | case1 a b c rest ih =>
    intro h
    have ha : a < 256 := h a (by simp)
    have hb : b < 256 := h b (by simp)
    have hc : c < 256 := h c (by simp)
    show a2bLoop (b64Char (a / 4) :: b64Char ((a % 4) * 16 + b / 16) ::
      b64Char ((b % 16) * 4 + c / 64) :: b64Char (c % 64) :: b64encode rest) 0 0 0 =
      some (a :: b :: c :: rest)
    rw [a2bLoop_quad _ _ _ _ _ (by omega) (by omega) (by omega) (by omega),
      ih (fun x hx => h x (by simp [hx]))]
    show some (_ :: _ :: _ :: rest) = some (a :: b :: c :: rest)
    simp only [Option.some.injEq, List.cons.injEq]
    exact ⟨by omega, by omega, by omega, trivial⟩
  | case2 a b =>
    intro h
    have ha : a < 256 := h a (by simp)
    have hb : b < 256 := h b (by simp)
    have e1 : a / 4 < 64 := by omega
    have e2 : (a % 4) * 16 + b / 16 < 64 := by omega
    have e3 : (b % 16) * 4 < 64 := by omega
    show a2bLoop [b64Char (a / 4), b64Char ((a % 4) * 16 + b / 16),
      b64Char ((b % 16) * 4), '='] 0 0 0 = some [a, b]
    simp only [a2bLoop,
      if_neg (b64Char_ne_pad _ e1), if_neg (b64Char_ne_pad _ e2),
      if_neg (b64Char_ne_pad _ e3),
      isB64Char_b64Char _ e1, isB64Char_b64Char _ e2, isB64Char_b64Char _ e3, if_true,
      b64Index_b64Char _ e1, b64Index_b64Char _ e2, b64Index_b64Char _ e3,
      if_pos rfl, if_pos (by omega : 2 ≤ 3 ∧ 4 ≤ 3 + (0 + 1))]
    simp only [Option.map_some', Option.some.injEq, List.cons.injEq]
    exact ⟨by omega, by omega, trivial⟩
  | case3 a =>
    intro h
    have ha : a < 256 := h a (by simp)
    have e1 : a / 4 < 64 := by omega
    have e2 : (a % 4) * 16 < 64 := by omega
    show a2bLoop [b64Char (a / 4), b64Char ((a % 4) * 16), '=', '='] 0 0 0 = some [a]
    simp only [a2bLoop,
      if_neg (b64Char_ne_pad _ e1), if_neg (b64Char_ne_pad _ e2),
      isB64Char_b64Char _ e1, isB64Char_b64Char _ e2, if_true,
      b64Index_b64Char _ e1, b64Index_b64Char _ e2, if_pos rfl]
    rw [if_neg (by omega : ¬(2 ≤ 2 ∧ 4 ≤ 2 + (0 + 1))), if_pos (by omega : (2 : Nat) ≤ 2)]
    simp only [a2bLoop, if_pos rfl, if_pos (by omega : 2 ≤ 2 ∧ 4 ≤ 2 + (1 + 1))]
    simp only [Option.map_some', Option.some.injEq, List.cons.injEq]
    exact ⟨by omega, trivial⟩
  | case4 =>
    intro _
    rfl

theorem b64decode_b64encode (bs : List Nat) (h : ∀ b ∈ bs, b < 256) :
    b64decode (b64encode bs) = some bs := by
  have hascii : (b64encode bs).all (fun c => c.toNat < 128) = true := by
    rw [List.all_eq_true]
    intro c hc
    simpa using (b64encode_chars bs h c hc).1
  simp only [b64decode, hascii, if_true]
  exact a2bLoop_b64encode bs h

/-!
## UTF-8 (Python `str.encode()` / `bytes.decode("utf-8")`)

The strict codec: the decoder rejects stray or missing continuation bytes,
overlong forms, surrogates and out-of-range values.
-/

def utf8EncodeChar (c : Char) : List Nat :=
  let n := c.toNat
  if n < 128 then [n]
  else if n < 2048 then [192 + n / 64, 128 + n % 64]
  else if n < 65536 then [224 + n / 4096, 128 + (n / 64) % 64, 128 + n % 64]
  else [240 + n / 262144, 128 + (n / 4096) % 64, 128 + (n / 64) % 64, 128 + n % 64]

def utf8encode : List Char → List Nat
  | [] => []
  | c :: rest => utf8EncodeChar c ++ utf8encode rest

def isContByte (b : Nat) : Bool := 128 ≤ b && b < 192

/-- Parse one scalar value from the front of a byte string (strict UTF-8). -/
def utf8decodeOne : List Nat → Option (Char × List Nat)
  | [] => none
  | b :: rest =>
    if b < 128 then some (Char.ofNat b, rest)
    else if b < 192 then none
    else if b < 224 then
      match rest with
      | b2 :: rest2 =>
        if isContByte b2 then
          let n := (b - 192) * 64 + (b2 - 128)
          if 128 ≤ n then some (Char.ofNat n, rest2) else none
        else none
      | [] => none
    else if b < 240 then
      match rest with
      | b2 :: b3 :: rest3 =>
        if isContByte b2 && isContByte b3 then
          let n := (b - 224) * 4096 + (b2 - 128) * 64 + (b3 - 128)
          if 2048 ≤ n ∧ (n < 55296 ∨ 57344 ≤ n) then some (Char.ofNat n, rest3) else none
        else none
      | _ => none
    else if b < 248 then
      match rest with
      | b2 :: b3 :: b4 :: rest4 =>
        if isContByte b2 && isContByte b3 && isContByte b4 then
          let n := (b - 240) * 262144 + (b2 - 128) * 4096 + (b3 - 128) * 64 + (b4 - 128)
          if 65536 ≤ n ∧ n < 1114112 then some (Char.ofNat n, rest4) else none
        else none
      | _ => none
    else none

set_option maxRecDepth 4096 in
theorem utf8decodeOne_shorter :
    ∀ {bs : List Nat} {c : Char} {r : List Nat},
      utf8decodeOne bs = some (c, r) → r.length < bs.length := by
  intro bs c r h
  match bs with
  | [] => simp [utf8decodeOne] at h
  | b :: rest =>
    simp only [utf8decodeOne] at h
    repeat' split at h
    all_goals cases h
    all_goals simp
    all_goals omega

/-- Python `bytes.decode("utf-8")` (strict).  The fuel argument (always the
input length at top level) only makes the recursion structural. -/
def utf8decodeFuel : Nat → List Nat → Option (List Char)
  | 0, [] => some []
  | 0, _ :: _ => none
  | _ + 1, [] => some []
  | fuel + 1, b :: rest =>
    match utf8decodeOne (b :: rest) with
    | some (c, r) => (utf8decodeFuel fuel r).map (fun s => c :: s)
    | none => none

def utf8decode (bs : List Nat) : Option (List Char) := utf8decodeFuel bs.length bs

theorem utf8decodeFuel_irrel :
    ∀ (f1 : Nat) (bs : List Nat) (f2 : Nat), bs.length ≤ f1 → bs.length ≤ f2 →
      utf8decodeFuel f1 bs = utf8decodeFuel f2 bs := by
  intro f1
  induction f1 with
  | zero =>
    intro bs f2 h1 _
    match bs with
    | [] => cases f2 <;> rfl
    | b :: rest => simp at h1
  | succ f ih =>
    intro bs f2 h1 h2
    match bs with
    | [] => cases f2 <;> rfl
    | b :: rest =>
      match f2 with
      | 0 => simp at h2
      | g + 1 =>
        simp only [utf8decodeFuel]
        match hone : utf8decodeOne (b :: rest) with
        | some (c, r) =>
          have hlt := utf8decodeOne_shorter hone
          simp only [List.length_cons] at hlt h1 h2
          show (utf8decodeFuel f r).map (fun s => c :: s) =
            (utf8decodeFuel g r).map (fun s => c :: s)
          rw [ih r g (by omega) (by omega)]
        | none => rfl

theorem utf8decode_cons_one {b : Nat} {rest : List Nat} {c : Char} {r : List Nat}
    (h : utf8decodeOne (b :: rest) = some (c, r)) :
    utf8decode (b :: rest) = (utf8decode r).map (fun s => c :: s) := by
  have hlt := utf8decodeOne_shorter h
  simp only [utf8decode, List.length_cons, utf8decodeFuel, h]
  rw [utf8decodeFuel_irrel rest.length r r.length (by simpa using Nat.lt_succ_iff.mp hlt)
    (Nat.le_refl _)]

theorem char_valid_nat (c : Char) :
    c.toNat < 55296 ∨ (57343 < c.toNat ∧ c.toNat < 1114112) := c.valid

theorem utf8decodeOne_encodeChar (c : Char) (l : List Nat) :
    utf8decodeOne (utf8EncodeChar c ++ l) = some (c, l) := by
  have hval := char_valid_nat c
  by_cases h1 : c.toNat < 128
  · simp only [utf8EncodeChar, if_pos h1, List.cons_append, List.nil_append]
    simp only [utf8decodeOne, if_pos h1, Char.ofNat_toNat]
  · by_cases h2 : c.toNat < 2048
    · simp only [utf8EncodeChar, if_neg h1, if_pos h2, List.cons_append, List.nil_append]
      simp only [utf8decodeOne]
      rw [if_neg (by omega), if_neg (by omega), if_pos (by omega)]
      have hcont : isContByte (128 + c.toNat % 64) = true := by
        simp only [isContByte, Bool.and_eq_true, decide_eq_true_eq]
        omega
      rw [hcont]
      simp only [if_true]
      have hn : (192 + c.toNat / 64 - 192) * 64 + (128 + c.toNat % 64 - 128) = c.toNat := by
        omega
      rw [hn, if_pos (by omega), Char.ofNat_toNat]
    · by_cases h3 : c.toNat < 65536
      · simp only [utf8EncodeChar, if_neg h1, if_neg h2, if_pos h3, List.cons_append,
          List.nil_append]
        simp only [utf8decodeOne]
        rw [if_neg (by omega), if_neg (by omega), if_neg (by omega), if_pos (by omega)]
        have hcont : (isContByte (128 + c.toNat / 64 % 64) &&
            isContByte (128 + c.toNat % 64)) = true := by
          simp only [isContByte, Bool.and_eq_true, decide_eq_true_eq]
          omega
        rw [hcont]
        simp only [if_true]
        have hn : (224 + c.toNat / 4096 - 224) * 4096 + (128 + c.toNat / 64 % 64 - 128) * 64 +
            (128 + c.toNat % 64 - 128) = c.toNat := by
          omega
        rw [hn, if_pos (by omega), Char.ofNat_toNat]
      · simp only [utf8EncodeChar, if_neg h1, if_neg h2, if_neg h3, List.cons_append,
          List.nil_append]
        simp only [utf8decodeOne]
        rw [if_neg (by omega), if_neg (by omega), if_neg (by omega), if_neg (by omega),
          if_pos (by omega)]
        have hcont : (isContByte (128 + c.toNat / 4096 % 64) &&
            isContByte (128 + c.toNat / 64 % 64) && isContByte (128 + c.toNat % 64)) =
            true := by
          simp only [isContByte, Bool.and_eq_true, decide_eq_true_eq]
          omega
        rw [hcont]
        simp only [if_true]
        have hn : (240 + c.toNat / 262144 - 240) * 262144 +
            (128 + c.toNat / 4096 % 64 - 128) * 4096 + (128 + c.toNat / 64 % 64 - 128) * 64 +
            (128 + c.toNat % 64 - 128) = c.toNat := by
          omega
        rw [hn, if_pos (by omega), Char.ofNat_toNat]

theorem utf8EncodeChar_ne_nil (c : Char) : utf8EncodeChar c ≠ [] := by
  simp only [utf8EncodeChar]
  repeat' split
  all_goals simp

theorem utf8decode_utf8encode (s : List Char) : utf8decode (utf8encode s) = some s := by
  induction s with
  | nil => rfl
  | cons c rest ih =>
    show utf8decode (utf8EncodeChar c ++ utf8encode rest) = some (c :: rest)
    have hone : utf8decodeOne (utf8EncodeChar c ++ utf8encode rest) =
        some (c, utf8encode rest) := utf8decodeOne_encodeChar c (utf8encode rest)
    match henc : utf8EncodeChar c, utf8EncodeChar_ne_nil c with
    | b :: bs, _ =>
      rw [henc] at hone
      rw [List.cons_append] at hone ⊢
      rw [utf8decode_cons_one hone, ih]
      rfl

/-!
## Tag grammar

`VERSIONED_TAG_PATTERN  = <encrypted v="(\d+)">([^<]*)</encrypted>`
`ANY_ENCRYPTED_TAG_PATTERN = <encrypted(?:\s+v="\d+")?>([^<]*)</encrypted>`

Both patterns are deterministic: `\d+` and `[^<]*` are maximal munches whose
follow sets are disjoint from their character classes, and the optional
version group starts with `\s` while the alternative requires `>`, so no
backtracking can produce a different match.
-/

/-- The opening literal `<encrypted v="` (also the `has_encrypted_tags` probe). -/
def markerChars : List Char := "<encrypted v=\"".toList

def verClose : List Char := "\">".toList

def closeTagChars : List Char := "</encrypted>".toList

def openAnyChars : List Char := "<encrypted".toList

def vQuoteChars : List Char := "v=\"".toList

/-- Matched text (`match.group(0)`) of a versioned span. -/
def mkVersionedTag (v p : List Char) : List Char :=
  markerChars ++ v ++ verClose ++ p ++ closeTagChars

/-- Text of a legacy (unversioned) span. -/
def mkLegacyTag (p : List Char) : List Char :=
  openAnyChars ++ '>' :: p ++ closeTagChars

/-- Anchored match of `VERSIONED_TAG_PATTERN`: `(version, payload, remainder)`. -/
def matchVersionedAt (s : List Char) : Option (List Char × List Char × List Char) :=
  match dropLit markerChars s with
  | none => none
  | some r1 =>
    if (r1.takeWhile isDigitChar).isEmpty then none
    else
      match dropLit verClose (r1.dropWhile isDigitChar) with
      | none => none
      | some r2 =>
        match dropLit closeTagChars (r2.dropWhile (fun c => c != '<')) with
        | none => none
        | some r3 => some (r1.takeWhile isDigitChar, r2.takeWhile (fun c => c != '<'), r3)

/-- The optional `(?:\s+v="\d+")?` group of `ANY_ENCRYPTED_TAG_PATTERN`. -/
def matchOptVersion (r1 : List Char) : Option (List Char) :=
  match r1 with
  | [] => some []
  | c :: rest =>
    if isWsChar c then
      match dropLit vQuoteChars ((c :: rest).dropWhile isWsChar) with
      | none => none
      | some ra =>
        if (ra.takeWhile isDigitChar).isEmpty then none
        else
          match ra.dropWhile isDigitChar with
          | '"' :: rb => some rb
          | _ => none
    else some (c :: rest)

/-- Anchored match of `ANY_ENCRYPTED_TAG_PATTERN`: `(payload, remainder)`. -/
def matchAnyAt (s : List Char) : Option (List Char × List Char) :=
  match dropLit openAnyChars s with
  | none => none
  | some r1 =>
    match matchOptVersion r1 with
    | none => none
    | some r2 =>
      match r2 with
      | '>' :: r5 =>
        match dropLit closeTagChars (r5.dropWhile (fun c => c != '<')) with
        | none => none
        | some r6 => some (r5.takeWhile (fun c => c != '<'), r6)
      | _ => none

theorem length_takeWhile_add_dropWhile (p : Char → Bool) (l : List Char) :
    (l.takeWhile p).length + (l.dropWhile p).length = l.length := by
  rw [← List.length_append, List.takeWhile_append_dropWhile]

theorem markerChars_length : markerChars.length = 14 := rfl

theorem verClose_length : verClose.length = 2 := rfl

theorem closeTagChars_length : closeTagChars.length = 12 := rfl

theorem openAnyChars_length : openAnyChars.length = 10 := rfl

theorem vQuoteChars_length : vQuoteChars.length = 3 := rfl

theorem matchVersionedAt_shorter {s v p r : List Char}
    (h : matchVersionedAt s = some (v, p, r)) : r.length < s.length := by
  simp only [matchVersionedAt] at h
  split at h
  · cases h
  · rename_i r1 h1
    split at h
    · cases h
    · split at h
      · cases h
      · rename_i r2 h2
        split at h
        · cases h
        · rename_i r3 h3
          cases h
          have e1 := length_of_dropLit h1
          have e2 := length_of_dropLit h2
          have e3 := length_of_dropLit h3
          have e4 := length_takeWhile_add_dropWhile isDigitChar r1
          have e5 := length_takeWhile_add_dropWhile (fun c => c != '<') r2
          rw [markerChars_length] at e1
          rw [verClose_length] at e2
          rw [closeTagChars_length] at e3
          omega

theorem matchOptVersion_le {r1 r2 : List Char} (h : matchOptVersion r1 = some r2) :
    r2.length ≤ r1.length := by
  simp only [matchOptVersion] at h
  split at h
  · cases h
    exact Nat.le_refl _
  · rename_i c rest
    split at h
    · split at h
      · cases h
      · rename_i ra hra
        split at h
        · cases h
        · split at h
          · rename_i rb hrb
            cases h
            have e1 := length_of_dropLit hra
            have e2 := length_takeWhile_add_dropWhile isWsChar (c :: rest)
            have e3 := length_takeWhile_add_dropWhile isDigitChar ra
            rw [hrb] at e3
            rw [vQuoteChars_length] at e1
            simp only [List.length_cons] at *
            omega
          · cases h
    · cases h
      exact Nat.le_refl _

theorem matchAnyAt_shorter {s p r : List Char}
    (h : matchAnyAt s = some (p, r)) : r.length < s.length := by
  simp only [matchAnyAt] at h
  split at h
  · cases h
  · rename_i r1 h1
    split at h
    · cases h
    · rename_i r2 h2
      split at h
      · rename_i r5
        split at h
        · cases h
        · rename_i r6 h6
          cases h
          have e1 := length_of_dropLit h1
          have e2 := matchOptVersion_le h2
          have e6 := length_of_dropLit h6
          have e5 := length_takeWhile_add_dropWhile (fun c => c != '<') r5
          rw [openAnyChars_length] at e1
          rw [closeTagChars_length] at e6
          simp only [List.length_cons] at *
          omega
      · cases h

/-!
## Placeholder grammar  (`ENV_PLACEHOLDER_PATTERN = \$\{([A-Za-z_][A-Za-z0-9_]*)\}`)
-/

def isNameStart (c : Char) : Bool :=
  ('A' ≤ c && c ≤ 'Z') || ('a' ≤ c && c ≤ 'z') || c == '_'

def isNameChar (c : Char) : Bool := isNameStart c || isDigitChar c

/-- Text of a `${NAME}` placeholder (`match.group(0)`). -/
def mkPlaceholder (name : List Char) : List Char :=
  '$' :: '{' :: name ++ ['}']

/-- Anchored match of `ENV_PLACEHOLDER_PATTERN`: `(name, remainder)`. -/
def matchPlaceholderAt : List Char → Option (List Char × List Char)
  | '$' :: '{' :: c :: t =>
    if isNameStart c then
      match (c :: t).dropWhile isNameChar with
      | '}' :: r2 => some ((c :: t).takeWhile isNameChar, r2)
      | _ => none
    else none
  | _ => none

theorem matchPlaceholderAt_shorter {s name r : List Char}
    (h : matchPlaceholderAt s = some (name, r)) : r.length < s.length := by
  rw [matchPlaceholderAt.eq_def] at h
  split at h
  · rename_i c t
    split at h
    · split at h
      · rename_i r2 hr2
        cases h
        have e1 := length_takeWhile_add_dropWhile isNameChar (c :: t)
        rw [hr2] at e1
        simp only [List.length_cons] at *
        omega
      · cases h
    · cases h
  · cases h

/-!
## The decryption pipeline (`script/utils.py`)

`AESGCM` comes from the external `cryptography` package, so it enters the
embedding as an explicit cipher parameter; the AEAD round-trip contract it
provides is taken as a hypothesis where a theorem needs it.  The module
global `CRYPTO_AVAILABLE` is threaded as the explicit boolean `crypto`.
-/

/-- The external AEAD primitive: `enc key nonce plaintext` and
`dec key nonce ciphertext` (`None` on authentication failure). -/
structure AeadCipher where
  enc : List Nat → List Nat → List Nat → List Nat
  dec : List Nat → List Nat → List Nat → Option (List Nat)

/-- The distinct failures `decrypt_value` can raise. -/
inductive DecryptError where
  | cryptoUnavailable : DecryptError
  | unsupportedVersion : List Char → DecryptError
  | malformedPayload : DecryptError
  | payloadTooShort : DecryptError
  | decryptionFailed : DecryptError
  | invalidUtf8 : DecryptError
deriving DecidableEq

/-- `KEY_LENGTH = 32`. -/
def KEY_LENGTH : Nat := 32

/-- `NONCE_LENGTH = 12`. -/
def NONCE_LENGTH : Nat := 12

/-- `ENCRYPTION_VERSION = "1"`. -/
def ENCRYPTION_VERSION : List Char := ['1']

/-- `has_encrypted_tags`: `'<encrypted v="' in content`. -/
def has_encrypted_tags (content : List Char) : Bool :=
  containsSub markerChars content

/-- `decrypt_value(key, encrypted_value)`. -/
def decrypt_value (crypto : Bool) (aead : AeadCipher) (key : List Nat)
    (encrypted_value : List Char) : Except DecryptError (List Char) :=
  if !crypto then .error .cryptoUnavailable
  else
    match matchVersionedAt (pyStrip encrypted_value) with
    | none => .ok encrypted_value
    | some (version, payload_b64, _) =>
      if version ≠ ENCRYPTION_VERSION then .error (.unsupportedVersion version)
      else
        match b64decode payload_b64 with
        | none => .error .malformedPayload
        | some combined =>
          if combined.length < NONCE_LENGTH then .error .payloadTooShort
          else
            match aead.dec key (combined.take NONCE_LENGTH) (combined.drop NONCE_LENGTH) with
            | none => .error .decryptionFailed
            | some plaintext =>
              match utf8decode plaintext with
              | none => .error .invalidUtf8
              | some s => .ok s

/-- The `VERSIONED_TAG_PATTERN.sub(replacer, content)` loop of
`decrypt_content_tags`: leftmost, non-overlapping; a span whose
`decrypt_value` raises is kept verbatim. -/
def decryptTagsFuel (crypto : Bool) (aead : AeadCipher) (key : List Nat) :
    Nat → List Char → List Char
  | 0, s => s
  | _ + 1, [] => []
  | fuel + 1, c :: rest =>
    match matchVersionedAt (c :: rest) with
    | some (version, payload, r) =>
      (match decrypt_value crypto aead key (mkVersionedTag version payload) with
       | .ok plain => plain
       | .error _ => mkVersionedTag version payload) ++ decryptTagsFuel crypto aead key fuel r
    | none => c :: decryptTagsFuel crypto aead key fuel rest

/-- `decrypt_content_tags(key, content)`. -/
def decrypt_content_tags (crypto : Bool) (aead : AeadCipher) (key : List Nat)
    (content : List Char) : List Char :=
  if !has_encrypted_tags content then content
  else decryptTagsFuel crypto aead key content.length content

/-- The `ANY_ENCRYPTED_TAG_PATTERN.sub(r"\1", content)` loop. -/
def stripFuel : Nat → List Char → List Char
  | 0, s => s
  | _ + 1, [] => []
  | fuel + 1, c :: rest =>
    match matchAnyAt (c :: rest) with
    | some (payload, r) => payload ++ stripFuel fuel r
    | none => c :: stripFuel fuel rest

/-- `strip_encrypted_tags(content)`. -/
def strip_encrypted_tags (content : List Char) : List Char :=
  stripFuel content.length content

/-- `decrypt_or_strip_content(content, key)`. -/
def decrypt_or_strip_content (crypto : Bool) (aead : AeadCipher)
    (content : List Char) (key : Option (List Nat)) : List Char × Bool :=
  if !has_encrypted_tags content then (content, false)
  else
    match key with
    | some k =>
      if crypto then (decrypt_content_tags crypto aead k content, true)
      else (strip_encrypted_tags content, false)
    | none => (strip_encrypted_tags content, false)

/-- `"0123456789abcdefABCDEF"` membership. -/
def isHexChar (c : Char) : Bool :=
  "0123456789abcdefABCDEF".toList.contains c

def hexVal (c : Char) : Nat :=
  if c ≤ '9' then c.toNat - 48 else if c ≤ 'F' then c.toNat - 55 else c.toNat - 87

/-- `bytes.fromhex` on an even-length hex string. -/
def bytesFromHex : List Char → List Nat
  | [] => []
  | [_] => []
  | c1 :: c2 :: rest => (hexVal c1 * 16 + hexVal c2) :: bytesFromHex rest

/-- `parse_key(key_str)`: `.error n` models `ValueError` reporting `n` chars. -/
def parse_key (key_str : List Char) : Except Nat (List Nat) :=
  let trimmed := pyStrip key_str
  if trimmed.length == KEY_LENGTH * 2 && trimmed.all isHexChar then
    .ok (bytesFromHex trimmed)
  else
    match b64decode trimmed with
    | some decoded =>
      if decoded.length == KEY_LENGTH then .ok decoded else .error trimmed.length
    | none => .error trimmed.length

/-- Association-list view of the Python `env` dict (keys unique). -/
def lookupEnv : List (List Char × List Char) → List Char → Option (List Char)
  | [], _ => none
  | (k, v) :: rest, name => if k = name then some v else lookupEnv rest name

/-- The `ENV_PLACEHOLDER_PATTERN.sub(replacer, content)` loop of
`substitute_placeholders`: a resolved name is replaced by its value, an
unresolved one is kept verbatim and appended to the unresolved list. -/
def substFuel (env : List (List Char × List Char)) :
    Nat → List Char → List Char × List (List Char)
  | 0, s => (s, [])
  | _ + 1, [] => ([], [])
  | fuel + 1, c :: rest =>
    match matchPlaceholderAt (c :: rest) with
    | some (name, r) =>
      match lookupEnv env name with
      | some v =>
        ((substFuel env fuel r).1 |> (v ++ ·), (substFuel env fuel r).2)
      | none =>
        (mkPlaceholder name ++ (substFuel env fuel r).1, name :: (substFuel env fuel r).2)
    | none => (c :: (substFuel env fuel rest).1, (substFuel env fuel rest).2)

/-- `substitute_placeholders(content, env)`. -/
def substitute_placeholders (content : List Char) (env : List (List Char × List Char)) :
    List Char × List (List Char) :=
  substFuel env content.length content

/-!
## Unfolding equations for the rewrite loops
-/

theorem stripFuel_irrel :
    ∀ (f1 : Nat) (s : List Char) (f2 : Nat), s.length ≤ f1 → s.length ≤ f2 →
      stripFuel f1 s = stripFuel f2 s := by
  intro f1
  induction f1 with
  | zero =>
    intro s f2 h1 _
    match s with
    | [] => cases f2 <;> rfl
    | c :: rest => simp at h1
  | succ f ih =>
    intro s f2 h1 h2
    match s with
    | [] => cases f2 <;> rfl
    | c :: rest =>
      match f2 with
      | 0 => simp at h2
      | g + 1 =>
        simp only [stripFuel]
        match hm : matchAnyAt (c :: rest) with
        | some (payload, r) =>
          have hlt := matchAnyAt_shorter hm
          simp only [List.length_cons] at hlt h1 h2
          show payload ++ stripFuel f r = payload ++ stripFuel g r
          rw [ih r g (by omega) (by omega)]
        | none =>
          show c :: stripFuel f rest = c :: stripFuel g rest
          simp only [List.length_cons] at h1 h2
          rw [ih rest g (by omega) (by omega)]

theorem strip_cons_match {c : Char} {rest payload r : List Char}
    (h : matchAnyAt (c :: rest) = some (payload, r)) :
    strip_encrypted_tags (c :: rest) = payload ++ strip_encrypted_tags r := by
  have hlt := matchAnyAt_shorter h
  simp only [strip_encrypted_tags, List.length_cons, stripFuel, h]
  show payload ++ stripFuel rest.length r = payload ++ stripFuel r.length r
  rw [stripFuel_irrel rest.length r r.length (by simp only [List.length_cons] at hlt; omega)
    (Nat.le_refl _)]

theorem strip_cons_nomatch {c : Char} {rest : List Char}
    (h : matchAnyAt (c :: rest) = none) :
    strip_encrypted_tags (c :: rest) = c :: strip_encrypted_tags rest := by
  simp only [strip_encrypted_tags, List.length_cons, stripFuel, h]

theorem strip_nil : strip_encrypted_tags [] = [] := rfl

theorem decryptTagsFuel_irrel (crypto : Bool) (aead : AeadCipher) (key : List Nat) :
    ∀ (f1 : Nat) (s : List Char) (f2 : Nat), s.length ≤ f1 → s.length ≤ f2 →
      decryptTagsFuel crypto aead key f1 s = decryptTagsFuel crypto aead key f2 s := by
  intro f1
  induction f1 with
  | zero =>
    intro s f2 h1 _
    match s with
    | [] => cases f2 <;> rfl
    | c :: rest => simp at h1
  | succ f ih =>
    intro s f2 h1 h2
    match s with
    | [] => cases f2 <;> rfl
    | c :: rest =>
      match f2 with
      | 0 => simp at h2
      | g + 1 =>
        simp only [decryptTagsFuel]
        match hm : matchVersionedAt (c :: rest) with
        | some (version, payload, r) =>
          have hlt := matchVersionedAt_shorter hm
          simp only [List.length_cons] at hlt h1 h2
          show _ ++ decryptTagsFuel crypto aead key f r =
            _ ++ decryptTagsFuel crypto aead key g r
          rw [ih r g (by omega) (by omega)]
        | none =>
          show c :: decryptTagsFuel crypto aead key f rest =
            c :: decryptTagsFuel crypto aead key g rest
          simp only [List.length_cons] at h1 h2
          rw [ih rest g (by omega) (by omega)]

/-- The span-rewrite loop without the `has_encrypted_tags` guard. -/
def decryptTagsLoop (crypto : Bool) (aead : AeadCipher) (key : List Nat)
    (s : List Char) : List Char :=
  decryptTagsFuel crypto aead key s.length s

theorem decryptTagsLoop_cons_match {crypto : Bool} {aead : AeadCipher} {key : List Nat}
    {c : Char} {rest version payload r : List Char}
    (h : matchVersionedAt (c :: rest) = some (version, payload, r)) :
    decryptTagsLoop crypto aead key (c :: rest) =
      (match decrypt_value crypto aead key (mkVersionedTag version payload) with
       | .ok plain => plain
       | .error _ => mkVersionedTag version payload) ++ decryptTagsLoop crypto aead key r := by
  have hlt := matchVersionedAt_shorter h
  simp only [decryptTagsLoop, List.length_cons, decryptTagsFuel, h]
  show _ ++ decryptTagsFuel crypto aead key rest.length r =
    _ ++ decryptTagsFuel crypto aead key r.length r
  rw [decryptTagsFuel_irrel crypto aead key rest.length r r.length
    (by simp only [List.length_cons] at hlt; omega) (Nat.le_refl _)]

theorem decryptTagsLoop_cons_nomatch {crypto : Bool} {aead : AeadCipher} {key : List Nat}
    {c : Char} {rest : List Char} (h : matchVersionedAt (c :: rest) = none) :
    decryptTagsLoop crypto aead key (c :: rest) =
      c :: decryptTagsLoop crypto aead key rest := by
  simp only [decryptTagsLoop, List.length_cons, decryptTagsFuel, h]

theorem substFuel_irrel (env : List (List Char × List Char)) :
    ∀ (f1 : Nat) (s : List Char) (f2 : Nat), s.length ≤ f1 → s.length ≤ f2 →
      substFuel env f1 s = substFuel env f2 s := by
  intro f1
  induction f1 with
  | zero =>
    intro s f2 h1 _
    match s with
    | [] => cases f2 <;> rfl
    | c :: rest => simp at h1
  | succ f ih =>
    intro s f2 h1 h2
    match s with
    | [] => cases f2 <;> rfl
    | c :: rest =>
      match f2 with
      | 0 => simp at h2
      | g + 1 =>
        simp only [substFuel]
        match hm : matchPlaceholderAt (c :: rest) with
        | some (name, r) =>
          have hlt := matchPlaceholderAt_shorter hm
          simp only [List.length_cons] at hlt h1 h2
          show (match lookupEnv env name with
            | some v => (v ++ (substFuel env f r).1, (substFuel env f r).2)
            | none => (mkPlaceholder name ++ (substFuel env f r).1,
                name :: (substFuel env f r).2)) =
            (match lookupEnv env name with
            | some v => (v ++ (substFuel env g r).1, (substFuel env g r).2)
            | none => (mkPlaceholder name ++ (substFuel env g r).1,
                name :: (substFuel env g r).2))
          rw [ih r g (by omega) (by omega)]
        | none =>
          show (c :: (substFuel env f rest).1, (substFuel env f rest).2) =
            (c :: (substFuel env g rest).1, (substFuel env g rest).2)
          simp only [List.length_cons] at h1 h2
          rw [ih rest g (by omega) (by omega)]

theorem subst_cons_match {env : List (List Char × List Char)} {c : Char}
    {rest name r : List Char} (h : matchPlaceholderAt (c :: rest) = some (name, r)) :
    substitute_placeholders (c :: rest) env =
      (match lookupEnv env name with
       | some v => (v ++ (substitute_placeholders r env).1, (substitute_placeholders r env).2)
       | none => (mkPlaceholder name ++ (substitute_placeholders r env).1,
           name :: (substitute_placeholders r env).2)) := by
  have hlt := matchPlaceholderAt_shorter h
  simp only [substitute_placeholders, List.length_cons, substFuel, h]
  rw [substFuel_irrel env rest.length r r.length
    (by simp only [List.length_cons] at hlt; omega) (Nat.le_refl _)]

theorem subst_cons_nomatch {env : List (List Char × List Char)} {c : Char}
    {rest : List Char} (h : matchPlaceholderAt (c :: rest) = none) :
    substitute_placeholders (c :: rest) env =
      (c :: (substitute_placeholders rest env).1, (substitute_placeholders rest env).2) := by
  simp only [substitute_placeholders, List.length_cons, substFuel, h]

/-!
## Matching constructed spans and placeholders
-/

theorem takeWhile_append_stop {p : Char → Bool} {l1 : List Char} {c : Char} (l2 : List Char)
    (h1 : ∀ a ∈ l1, p a = true) (h2 : p c = false) :
    (l1 ++ c :: l2).takeWhile p = l1 := by
  induction l1 with
  | nil => simp [List.takeWhile_cons, h2]
  | cons a l ih =>
    have ha : p a = true := h1 a (by simp)
    simp only [List.cons_append, List.takeWhile_cons, ha, if_true]
    rw [ih (fun x hx => h1 x (by simp [hx]))]

theorem dropWhile_append_stop {p : Char → Bool} {l1 : List Char} {c : Char} (l2 : List Char)
    (h1 : ∀ a ∈ l1, p a = true) (h2 : p c = false) :
    (l1 ++ c :: l2).dropWhile p = c :: l2 := by
  induction l1 with
  | nil => simp [List.dropWhile_cons, h2]
  | cons a l ih =>
    have ha : p a = true := h1 a (by simp)
    simp only [List.cons_append, List.dropWhile_cons, ha, if_true]
    exact ih (fun x hx => h1 x (by simp [hx]))

theorem matchVersionedAt_build (v p rest : List Char) (hv : v ≠ [])
    (hvd : ∀ c ∈ v, isDigitChar c = true) (hp : ∀ c ∈ p, (c != '<') = true) :
    matchVersionedAt (mkVersionedTag v p ++ rest) = some (v, p, rest) := by
  have hshape : mkVersionedTag v p ++ rest =
      markerChars ++ (v ++ ('"' :: '>' :: (p ++ ('<' :: ("/encrypted>".toList ++ rest))))) := by
    simp only [mkVersionedTag, verClose, closeTagChars]
    simp [List.append_assoc]
  rw [hshape]
  simp only [matchVersionedAt, dropLit_append]
  rw [takeWhile_append_stop _ hvd (by decide), dropWhile_append_stop _ hvd (by decide)]
  have hne : v.isEmpty = false := by
    cases v with
    | nil => exact absurd rfl hv
    | cons a l => rfl
  rw [hne]
  simp only [Bool.false_eq_true, if_false]
  rw [show dropLit verClose ('"' :: '>' :: (p ++ ('<' :: ("/encrypted>".toList ++ rest)))) =
    some (p ++ ('<' :: ("/encrypted>".toList ++ rest))) from rfl]
  show (match dropLit closeTagChars
      (List.dropWhile (fun c => c != '<') (p ++ '<' :: ("/encrypted>".toList ++ rest))) with
    | none => none
    | some r3 => some (v,
        List.takeWhile (fun c => c != '<') (p ++ '<' :: ("/encrypted>".toList ++ rest)), r3)) =
    some (v, p, rest)
  rw [takeWhile_append_stop _ hp (by decide), dropWhile_append_stop _ hp (by decide)]
  rw [show dropLit closeTagChars ('<' :: ("/encrypted>".toList ++ rest)) = some rest from by
    have hct : ('<' : Char) :: ("/encrypted>".toList ++ rest) = closeTagChars ++ rest := rfl
    rw [hct, dropLit_append]]

theorem matchAnyAt_versioned (v p rest : List Char) (hv : v ≠ [])
    (hvd : ∀ c ∈ v, isDigitChar c = true) (hp : ∀ c ∈ p, (c != '<') = true) :
    matchAnyAt (mkVersionedTag v p ++ rest) = some (p, rest) := by
  have hshape : mkVersionedTag v p ++ rest =
      openAnyChars ++ (' ' :: 'v' :: '=' :: '"' ::
        (v ++ ('"' :: '>' :: (p ++ ('<' :: ("/encrypted>".toList ++ rest)))))) := by
    simp only [mkVersionedTag, verClose, closeTagChars,
      show markerChars = openAnyChars ++ [' ', 'v', '=', '"'] from rfl]
    simp [List.append_assoc]
  rw [hshape]
  simp only [matchAnyAt, dropLit_append]
  have hopt : matchOptVersion (' ' :: 'v' :: '=' :: '"' ::
      (v ++ ('"' :: '>' :: (p ++ ('<' :: ("/encrypted>".toList ++ rest)))))) =
      some ('>' :: (p ++ ('<' :: ("/encrypted>".toList ++ rest)))) := by
    simp only [matchOptVersion, show isWsChar ' ' = true from rfl, if_true]
    rw [show List.dropWhile isWsChar (' ' :: 'v' :: '=' :: '"' ::
        (v ++ ('"' :: '>' :: (p ++ ('<' :: ("/encrypted>".toList ++ rest)))))) =
      'v' :: '=' :: '"' :: (v ++ ('"' :: '>' :: (p ++ ('<' :: ("/encrypted>".toList ++ rest)))))
      from by simp [List.dropWhile_cons, isWsChar]]
    rw [show dropLit vQuoteChars ('v' :: '=' :: '"' ::
        (v ++ ('"' :: '>' :: (p ++ ('<' :: ("/encrypted>".toList ++ rest)))))) =
      some (v ++ ('"' :: '>' :: (p ++ ('<' :: ("/encrypted>".toList ++ rest))))) from rfl]
    show (if (List.takeWhile isDigitChar
          (v ++ ('"' :: '>' :: (p ++ ('<' :: ("/encrypted>".toList ++ rest)))))).isEmpty =
            true then none
      else match List.dropWhile isDigitChar
          (v ++ ('"' :: '>' :: (p ++ ('<' :: ("/encrypted>".toList ++ rest))))) with
        | '"' :: rb => some rb
        | _ => none) = some ('>' :: (p ++ ('<' :: ("/encrypted>".toList ++ rest))))
    rw [takeWhile_append_stop _ hvd (by decide), dropWhile_append_stop _ hvd (by decide)]
    have hne : v.isEmpty = false := by
      cases v with
      | nil => exact absurd rfl hv
      | cons a l => rfl
    rw [hne]
    simp only [Bool.false_eq_true, if_false]
  rw [hopt]
  show (match dropLit closeTagChars
      (List.dropWhile (fun c => c != '<') (p ++ ('<' :: ("/encrypted>".toList ++ rest)))) with
    | none => none
    | some r6 => some (List.takeWhile (fun c => c != '<')
        (p ++ ('<' :: ("/encrypted>".toList ++ rest))), r6)) = some (p, rest)
  rw [takeWhile_append_stop _ hp (by decide), dropWhile_append_stop _ hp (by decide)]
  rw [show dropLit closeTagChars ('<' :: ("/encrypted>".toList ++ rest)) = some rest from by
    have hct : ('<' : Char) :: ("/encrypted>".toList ++ rest) = closeTagChars ++ rest := rfl
    rw [hct, dropLit_append]]

theorem matchAnyAt_legacy (p rest : List Char) (hp : ∀ c ∈ p, (c != '<') = true) :
    matchAnyAt (mkLegacyTag p ++ rest) = some (p, rest) := by
  have hshape : mkLegacyTag p ++ rest =
      openAnyChars ++ ('>' :: (p ++ ('<' :: ("/encrypted>".toList ++ rest)))) := by
    simp only [mkLegacyTag, closeTagChars]
    simp [List.append_assoc]
  rw [hshape]
  simp only [matchAnyAt, dropLit_append]
  have hopt : matchOptVersion ('>' :: (p ++ ('<' :: ("/encrypted>".toList ++ rest)))) =
      some ('>' :: (p ++ ('<' :: ("/encrypted>".toList ++ rest)))) := by
    simp only [matchOptVersion, show isWsChar '>' = false from rfl, Bool.false_eq_true,
      if_false]
  rw [hopt]
  show (match dropLit closeTagChars
      (List.dropWhile (fun c => c != '<') (p ++ ('<' :: ("/encrypted>".toList ++ rest)))) with
    | none => none
    | some r6 => some (List.takeWhile (fun c => c != '<')
        (p ++ ('<' :: ("/encrypted>".toList ++ rest))), r6)) = some (p, rest)
  rw [takeWhile_append_stop _ hp (by decide), dropWhile_append_stop _ hp (by decide)]
  rw [show dropLit closeTagChars ('<' :: ("/encrypted>".toList ++ rest)) = some rest from by
    have hct : ('<' : Char) :: ("/encrypted>".toList ++ rest) = closeTagChars ++ rest := rfl
    rw [hct, dropLit_append]]

/-- `[A-Za-z_][A-Za-z0-9_]*` as a predicate on a whole name. -/
def validName (name : List Char) : Bool :=
  match name with
  | [] => false
  | c :: _ => isNameStart c && name.all isNameChar

theorem matchPlaceholderAt_build (name s : List Char) (h : validName name = true) :
    matchPlaceholderAt (mkPlaceholder name ++ s) = some (name, s) := by
  match name with
  | [] => simp [validName] at h
  | c :: t =>
    simp only [validName, Bool.and_eq_true, List.all_eq_true] at h
    obtain ⟨hstart, hall⟩ := h
    have hshape : mkPlaceholder (c :: t) ++ s = '$' :: '{' :: c :: (t ++ ('}' :: s)) := by
      simp [mkPlaceholder]
    rw [hshape]
    simp only [matchPlaceholderAt, hstart, if_true]
    have hcons : c :: (t ++ ('}' :: s)) = (c :: t) ++ ('}' :: s) := rfl
    rw [hcons, takeWhile_append_stop _ (fun a ha => hall a ha) (by decide),
      dropWhile_append_stop _ (fun a ha => hall a ha) (by decide)]
    rfl

theorem pyStrip_sandwich {c d : Char} (m : List Char) (hc : isWsChar c = false)
    (hd : isWsChar d = false) : pyStrip (c :: (m ++ [d])) = c :: (m ++ [d]) := by
  unfold pyStrip
  rw [List.dropWhile_cons, hc]
  simp only [Bool.false_eq_true, if_false]
  rw [show (c :: (m ++ [d])).reverse = d :: (m.reverse ++ [c]) from by
    simp [List.reverse_cons, List.reverse_append]]
  rw [List.dropWhile_cons, hd]
  simp only [Bool.false_eq_true, if_false]
  simp [List.reverse_cons, List.reverse_append]

theorem pyStrip_mkVersionedTag (v p : List Char) :
    pyStrip (mkVersionedTag v p) = mkVersionedTag v p := by
  have hshape : mkVersionedTag v p =
      '<' :: (("encrypted v=\"".toList ++ (v ++ (verClose ++ (p ++ "</encrypted".toList)))) ++
        ['>']) := by
    simp only [mkVersionedTag,
      show markerChars = '<' :: "encrypted v=\"".toList from rfl,
      show closeTagChars = "</encrypted".toList ++ ['>'] from rfl]
    simp [List.append_assoc]
  rw [hshape, pyStrip_sandwich _ (by decide) (by decide)]

/-!
## Marker-probe lemmas
-/

theorem matchVersionedAt_marker {s : List Char} {x : List Char × List Char × List Char}
    (h : matchVersionedAt s = some x) : markerChars.isPrefixOf s = true := by
  simp only [matchVersionedAt] at h
  split at h
  · cases h
  · rename_i r1 h1
    rw [dropLit_eq_append h1]
    exact isPrefixOf_append_self _ _

theorem containsSub_cons_false {pat : List Char} {c : Char} {rest : List Char}
    (h : containsSub pat (c :: rest) = false) :
    pat.isPrefixOf (c :: rest) = false ∧ containsSub pat rest = false := by
  simp only [containsSub, Bool.or_eq_false_iff] at h
  exact h

theorem decryptTagsLoop_of_no_marker (crypto : Bool) (aead : AeadCipher) (key : List Nat) :
    ∀ s : List Char, containsSub markerChars s = false →
      decryptTagsLoop crypto aead key s = s := by
  intro s
  induction s with
  | nil => intro _; rfl
  | cons c rest ih =>
    intro h
    obtain ⟨h1, h2⟩ := containsSub_cons_false h
    match hm : matchVersionedAt (c :: rest) with
    | some x =>
      rw [matchVersionedAt_marker hm] at h1
      cases h1
    | none => rw [decryptTagsLoop_cons_nomatch hm, ih h2]

theorem decrypt_or_strip_of_no_marker {crypto : Bool} {aead : AeadCipher}
    {content : List Char} {key : Option (List Nat)}
    (h : has_encrypted_tags content = false) :
    decrypt_or_strip_content crypto aead content key = (content, false) := by
  simp [decrypt_or_strip_content, h]

theorem matchAnyAt_none_of_head_ne {c : Char} (r : List Char) (hc : c ≠ '<') :
    matchAnyAt (c :: r) = none := by
  simp only [matchAnyAt]
  rw [show dropLit openAnyChars (c :: r) = none from by
    show (if '<' = c then dropLit "encrypted".toList r else none) = none
    rw [if_neg (fun hh => hc hh.symm)]]

theorem matchVersionedAt_none_of_head_ne {c : Char} (r : List Char) (hc : c ≠ '<') :
    matchVersionedAt (c :: r) = none := by
  simp only [matchVersionedAt]
  rw [show dropLit markerChars (c :: r) = none from by
    show (if '<' = c then dropLit "encrypted v=\"".toList r else none) = none
    rw [if_neg (fun hh => hc hh.symm)]]

theorem matchPlaceholderAt_none_of_head_ne {c : Char} (r : List Char) (hc : c ≠ '$') :
    matchPlaceholderAt (c :: r) = none := by
  rw [matchPlaceholderAt.eq_def]
  split
  · rename_i heq
    injection heq with hh _
    exact absurd hh hc
  · rfl

theorem strip_append_clean (pre t : List Char) (h : ∀ c ∈ pre, c ≠ '<') :
    strip_encrypted_tags (pre ++ t) = pre ++ strip_encrypted_tags t := by
  induction pre with
  | nil => simp
  | cons a l ih =>
    have ha : a ≠ '<' := h a (by simp)
    rw [List.cons_append, strip_cons_nomatch (matchAnyAt_none_of_head_ne _ ha),
      ih (fun c hc => h c (by simp [hc]))]
    rfl

theorem decryptTagsLoop_append_clean (crypto : Bool) (aead : AeadCipher) (key : List Nat)
    (pre t : List Char) (h : ∀ c ∈ pre, c ≠ '<') :
    decryptTagsLoop crypto aead key (pre ++ t) =
      pre ++ decryptTagsLoop crypto aead key t := by
  induction pre with
  | nil => simp
  | cons a l ih =>
    have ha : a ≠ '<' := h a (by simp)
    rw [List.cons_append, decryptTagsLoop_cons_nomatch (matchVersionedAt_none_of_head_ne _ ha),
      ih (fun c hc => h c (by simp [hc]))]
    rfl

theorem matchVersionedAt_mkTag (v p : List Char) (hv : v ≠ [])
    (hvd : ∀ c ∈ v, isDigitChar c = true) (hp : ∀ c ∈ p, (c != '<') = true) :
    matchVersionedAt (mkVersionedTag v p) = some (v, p, []) := by
  have h := matchVersionedAt_build v p [] hv hvd hp
  rwa [List.append_nil] at h

/-- The trivial cipher used to instantiate witnesses. -/
def trivAead : AeadCipher where
  enc := fun _ _ plaintext => plaintext
  dec := fun _ _ ciphertext => some ciphertext

/-!
## Remaining helper lemmas
-/

theorem matchAnyAt_nil : matchAnyAt [] = none := rfl

theorem matchVersionedAt_nil : matchVersionedAt [] = none := rfl

theorem matchPlaceholderAt_nil : matchPlaceholderAt [] = none := rfl

theorem strip_eq_of_match {s p r : List Char} (h : matchAnyAt s = some (p, r)) :
    strip_encrypted_tags s = p ++ strip_encrypted_tags r := by
  match s with
  | [] => rw [matchAnyAt_nil] at h; cases h
  | c :: rest => exact strip_cons_match h

theorem decryptTagsLoop_eq_of_match {crypto : Bool} {aead : AeadCipher} {key : List Nat}
    {s version payload r : List Char}
    (h : matchVersionedAt s = some (version, payload, r)) :
    decryptTagsLoop crypto aead key s =
      (match decrypt_value crypto aead key (mkVersionedTag version payload) with
       | .ok plain => plain
       | .error _ => mkVersionedTag version payload) ++ decryptTagsLoop crypto aead key r := by
  match s with
  | [] => rw [matchVersionedAt_nil] at h; cases h
  | c :: rest => exact decryptTagsLoop_cons_match h

theorem subst_eq_of_match {env : List (List Char × List Char)} {s name r : List Char}
    (h : matchPlaceholderAt s = some (name, r)) :
    substitute_placeholders s env =
      (match lookupEnv env name with
       | some v => (v ++ (substitute_placeholders r env).1, (substitute_placeholders r env).2)
       | none => (mkPlaceholder name ++ (substitute_placeholders r env).1,
           name :: (substitute_placeholders r env).2)) := by
  match s with
  | [] => rw [matchPlaceholderAt_nil] at h; cases h
  | c :: rest => exact subst_cons_match h

theorem decrypt_content_tags_eq_loop (crypto : Bool) (aead : AeadCipher) (key : List Nat)
    (content : List Char) :
    decrypt_content_tags crypto aead key content = decryptTagsLoop crypto aead key content := by
  by_cases h : has_encrypted_tags content = true
  · simp [decrypt_content_tags, decryptTagsLoop, h]
  · have hf : has_encrypted_tags content = false := by simpa using h
    rw [decryptTagsLoop_of_no_marker crypto aead key content hf]
    simp [decrypt_content_tags, hf]

theorem has_encrypted_tags_mkTag (v p rest : List Char) :
    has_encrypted_tags (mkVersionedTag v p ++ rest) = true := by
  have h2 : mkVersionedTag v p ++ rest =
      [] ++ markerChars ++ (v ++ verClose ++ p ++ closeTagChars ++ rest) := by
    simp [mkVersionedTag, List.append_assoc]
  rw [has_encrypted_tags, h2]
  exact containsSub_of_append _ _ _

/-!
## The claims
-/

/-- C9: a document that does not contain the opening marker `<encrypted v="` is
returned byte-identical by `decrypt_or_strip_content` with `wasAnyDecrypted = false`,
for every key (including `None`), via the `has_encrypted_tags` pre-check. -/
theorem decrypt_or_strip_no_marker_identity (crypto : Bool) (aead : AeadCipher)
    (content : List Char) (key : Option (List Nat))
    (h : has_encrypted_tags content = false) :
    decrypt_or_strip_content crypto aead content key = (content, false) :=
  decrypt_or_strip_of_no_marker h

theorem decrypt_or_strip_no_marker_identity_witness :
    has_encrypted_tags "no secrets here".toList = false ∧
    decrypt_or_strip_content true trivAead "no secrets here".toList none =
      ("no secrets here".toList, false) :=
  ⟨by decide,
   decrypt_or_strip_no_marker_identity true trivAead "no secrets here".toList none (by decide)⟩

/-- C10: a document containing only legacy unversioned spans (no `<encrypted v="`
marker anywhere) is returned byte-identical with `wasAnyDecrypted = false` under
every key including `None`; its legacy tags are never stripped, although
`strip_encrypted_tags` itself would strip them. -/
theorem decrypt_or_strip_legacy_only_identity (crypto : Bool) (aead : AeadCipher)
    (key : Option (List Nat)) (pre x suf : List Char)
    (hx : ∀ c ∈ x, (c != '<') = true)
    (h : has_encrypted_tags (pre ++ mkLegacyTag x ++ suf) = false) :
    decrypt_or_strip_content crypto aead (pre ++ mkLegacyTag x ++ suf) key =
      (pre ++ mkLegacyTag x ++ suf, false) ∧
    ((∀ c ∈ pre, c ≠ '<') →
      strip_encrypted_tags (pre ++ mkLegacyTag x ++ suf) =
        pre ++ x ++ strip_encrypted_tags suf) := by
  constructor
  · exact decrypt_or_strip_of_no_marker h
  · intro hpre
    rw [List.append_assoc, strip_append_clean pre _ hpre,
      strip_eq_of_match (matchAnyAt_legacy x suf hx), List.append_assoc]

theorem decrypt_or_strip_legacy_only_identity_witness :
    has_encrypted_tags (mkLegacyTag ['A', 'A']) = false ∧
    decrypt_or_strip_content true trivAead (mkLegacyTag ['A', 'A']) none =
      (mkLegacyTag ['A', 'A'], false) := by
  have h := decrypt_or_strip_legacy_only_identity true trivAead none [] ['A', 'A'] []
    (by decide) (by decide)
  refine ⟨by decide, ?_⟩
  have h1 := h.1
  simpa using h1

/-- C2 counterexample: a document containing only a legacy unversioned span is NOT
stripped by `decrypt_or_strip_content` with key `None`; the span's tag markup is
kept, contradicting "returns the document with every span replaced by its bare
payload". -/
theorem decrypt_or_strip_legacy_only_not_stripped :
    decrypt_or_strip_content true trivAead "<encrypted>A</encrypted>".toList none =
      ("<encrypted>A</encrypted>".toList, false) ∧
    strip_encrypted_tags "<encrypted>A</encrypted>".toList = ['A'] ∧
    "<encrypted>A</encrypted>".toList ≠ ['A'] :=
  ⟨by decide, by decide, by decide⟩

/-- C2 (amended): for every document that contains the versioned marker
`<encrypted v="`, `decrypt_or_strip_content` with key `None` never fails and
returns `(strip_encrypted_tags doc, false)`; a document whose spans are all
legacy is returned unchanged (see the counterexample). -/
theorem decrypt_or_strip_none_key_strips (crypto : Bool) (aead : AeadCipher)
    (content : List Char) (h : has_encrypted_tags content = true) :
    decrypt_or_strip_content crypto aead content none =
      (strip_encrypted_tags content, false) := by
  simp [decrypt_or_strip_content, h]

theorem decrypt_or_strip_none_key_strips_witness :
    has_encrypted_tags "x<encrypted v=\"1\">abc</encrypted>".toList = true ∧
    decrypt_or_strip_content true trivAead "x<encrypted v=\"1\">abc</encrypted>".toList none =
      (strip_encrypted_tags "x<encrypted v=\"1\">abc</encrypted>".toList, false) :=
  ⟨by decide,
   decrypt_or_strip_none_key_strips true trivAead "x<encrypted v=\"1\">abc</encrypted>".toList
     (by decide)⟩

/-- C7: when the marker is present and a key is available (crypto usable),
`decrypt_or_strip_content` reports `wasAnyDecrypted = true` unconditionally —
the flag means "decryption was attempted with a key", not "every span
succeeded". -/
theorem decrypt_or_strip_reports_attempted (aead : AeadCipher) (key : List Nat)
    (content : List Char) (h : has_encrypted_tags content = true) :
    decrypt_or_strip_content true aead content (some key) =
      (decrypt_content_tags true aead key content, true) := by
  simp [decrypt_or_strip_content, h]

theorem decrypt_or_strip_reports_attempted_witness :
    has_encrypted_tags "<encrypted v=\"2\">zz</encrypted>".toList = true ∧
    decrypt_or_strip_content true trivAead "<encrypted v=\"2\">zz</encrypted>".toList
        (some (List.replicate 32 0)) =
      (decrypt_content_tags true trivAead (List.replicate 32 0)
        "<encrypted v=\"2\">zz</encrypted>".toList, true) ∧
    decrypt_content_tags true trivAead (List.replicate 32 0)
        "<encrypted v=\"2\">zz</encrypted>".toList =
      "<encrypted v=\"2\">zz</encrypted>".toList :=
  ⟨by decide,
   decrypt_or_strip_reports_attempted trivAead (List.replicate 32 0)
     "<encrypted v=\"2\">zz</encrypted>".toList (by decide),
   by decide⟩

/-- C6 counterexample: `decrypt_or_strip_content` is not idempotent.  With key
`None`, stripping the nested document
`<encrypted v="1"><encrypted>AAAA</encrypted></encrypted>` yields
`<encrypted v="1">AAAA</encrypted>`, which a second application strips again. -/
theorem decrypt_or_strip_not_idempotent :
    (decrypt_or_strip_content true trivAead
        (decrypt_or_strip_content true trivAead
          "<encrypted v=\"1\"><encrypted>AAAA</encrypted></encrypted>".toList none).1
        none).1 ≠
      (decrypt_or_strip_content true trivAead
        "<encrypted v=\"1\"><encrypted>AAAA</encrypted></encrypted>".toList none).1 := by
  decide

/-- C6 (amended): `decrypt_or_strip_content` re-applied to its own output is the
identity whenever that output no longer contains the versioned marker (the case
the spec's rationale assumes); the counterexample shows this can fail when
stripped payloads recombine with surrounding text into a new span. -/
theorem decrypt_or_strip_idempotent_of_no_residual_marker (crypto : Bool)
    (aead : AeadCipher) (content : List Char) (key : Option (List Nat))
    (h : has_encrypted_tags (decrypt_or_strip_content crypto aead content key).1 = false) :
    decrypt_or_strip_content crypto aead
        (decrypt_or_strip_content crypto aead content key).1 key =
      ((decrypt_or_strip_content crypto aead content key).1, false) :=
  decrypt_or_strip_of_no_marker h

theorem decrypt_or_strip_idempotent_of_no_residual_marker_witness :
    has_encrypted_tags (decrypt_or_strip_content true trivAead
        "<encrypted v=\"1\">abc</encrypted>".toList none).1 = false ∧
    decrypt_or_strip_content true trivAead
        (decrypt_or_strip_content true trivAead
          "<encrypted v=\"1\">abc</encrypted>".toList none).1 none =
      ((decrypt_or_strip_content true trivAead
          "<encrypted v=\"1\">abc</encrypted>".toList none).1, false) :=
  ⟨by decide,
   decrypt_or_strip_idempotent_of_no_residual_marker true trivAead
     "<encrypted v=\"1\">abc</encrypted>".toList none (by decide)⟩

/-- C4: `strip_encrypted_tags` replaces every span — versioned or legacy — by its
bare payload without decoding, and leaves text outside spans unchanged. -/
theorem strip_encrypted_tags_spec (x : List Char) (hx : ∀ c ∈ x, (c != '<') = true) :
    strip_encrypted_tags (mkVersionedTag ['1'] x) = x ∧
    strip_encrypted_tags (mkLegacyTag x) = x ∧
    (∀ pre suf : List Char, (∀ c ∈ pre, c ≠ '<') →
      strip_encrypted_tags (pre ++ mkVersionedTag ['1'] x ++ suf) =
        pre ++ x ++ strip_encrypted_tags suf ∧
      strip_encrypted_tags (pre ++ mkLegacyTag x ++ suf) =
        pre ++ x ++ strip_encrypted_tags suf) ∧
    (∀ s : List Char, (∀ c ∈ s, c ≠ '<') → strip_encrypted_tags s = s) := by
  have hver : ∀ suf, strip_encrypted_tags (mkVersionedTag ['1'] x ++ suf) =
      x ++ strip_encrypted_tags suf :=
    fun suf => strip_eq_of_match (matchAnyAt_versioned ['1'] x suf (by decide) (by decide) hx)
  have hleg : ∀ suf, strip_encrypted_tags (mkLegacyTag x ++ suf) =
      x ++ strip_encrypted_tags suf :=
    fun suf => strip_eq_of_match (matchAnyAt_legacy x suf hx)
  have hid : ∀ s, (∀ c ∈ s, c ≠ '<') → strip_encrypted_tags s = s := by
    intro s hs
    have h := strip_append_clean s [] hs
    simpa [strip_nil] using h
  refine ⟨?_, ?_, ?_, hid⟩
  · have h := hver []
    simpa [strip_nil] using h
  · have h := hleg []
    simpa [strip_nil] using h
  · intro pre suf hpre
    constructor
    · rw [List.append_assoc, strip_append_clean pre _ hpre, hver suf, List.append_assoc]
    · rw [List.append_assoc, strip_append_clean pre _ hpre, hleg suf, List.append_assoc]

theorem strip_encrypted_tags_spec_witness :
    strip_encrypted_tags (mkVersionedTag ['1'] ['a', 'b', 'c']) = ['a', 'b', 'c'] ∧
    strip_encrypted_tags (mkLegacyTag ['a', 'b', 'c']) = ['a', 'b', 'c'] :=
  ⟨(strip_encrypted_tags_spec ['a', 'b', 'c'] (by decide)).1,
   (strip_encrypted_tags_spec ['a', 'b', 'c'] (by decide)).2.1⟩

theorem decrypt_value_mkTag (aead : AeadCipher) (key : List Nat) (v p : List Char)
    (hv : v ≠ []) (hvd : ∀ c ∈ v, isDigitChar c = true)
    (hp : ∀ c ∈ p, (c != '<') = true) :
    decrypt_value true aead key (mkVersionedTag v p) =
      (if v ≠ ENCRYPTION_VERSION then .error (.unsupportedVersion v)
       else
        match b64decode p with
        | none => .error .malformedPayload
        | some combined =>
          if combined.length < NONCE_LENGTH then .error .payloadTooShort
          else
            match aead.dec key (combined.take NONCE_LENGTH) (combined.drop NONCE_LENGTH) with
            | none => .error .decryptionFailed
            | some plaintext =>
              match utf8decode plaintext with
              | none => .error .invalidUtf8
              | some s => .ok s) := by
  simp only [decrypt_value]
  rw [if_neg (by decide), pyStrip_mkVersionedTag, matchVersionedAt_mkTag v p hv hvd hp]

/-- C5: a span with version other than `"1"` makes `decrypt_value` fail with the
unsupported-version error, and `decrypt_content_tags` keeps that span's original
tag text verbatim while the rest of the document is still processed. -/
theorem unsupported_version_span_preserved (aead : AeadCipher) (key : List Nat)
    (x s : List Char) (hx : ∀ c ∈ x, (c != '<') = true) :
    decrypt_value true aead key (mkVersionedTag ['2'] x) =
      .error (.unsupportedVersion ['2']) ∧
    decrypt_content_tags true aead key (mkVersionedTag ['2'] x ++ s) =
      mkVersionedTag ['2'] x ++ decrypt_content_tags true aead key s := by
  have hdv : decrypt_value true aead key (mkVersionedTag ['2'] x) =
      .error (.unsupportedVersion ['2']) := by
    rw [decrypt_value_mkTag aead key ['2'] x (by decide) (by decide) hx, if_pos (by decide)]
  refine ⟨hdv, ?_⟩
  rw [decrypt_content_tags_eq_loop, decrypt_content_tags_eq_loop,
    decryptTagsLoop_eq_of_match (matchVersionedAt_build ['2'] x s (by decide) (by decide) hx),
    hdv]

theorem unsupported_version_span_preserved_witness :
    decrypt_value true trivAead (List.replicate 32 0) (mkVersionedTag ['2'] ['z', 'z']) =
      .error (.unsupportedVersion ['2']) ∧
    decrypt_content_tags true trivAead (List.replicate 32 0)
        (mkVersionedTag ['2'] ['z', 'z'] ++ "tail".toList) =
      mkVersionedTag ['2'] ['z', 'z'] ++
        decrypt_content_tags true trivAead (List.replicate 32 0) "tail".toList :=
  unsupported_version_span_preserved trivAead (List.replicate 32 0) ['z', 'z'] "tail".toList
    (by decide)

theorem bytesFromHex_length : ∀ l : List Char, (bytesFromHex l).length = l.length / 2 := by
  intro l
  induction l using bytesFromHex.induct with
  | case1 => rfl
  | case2 c => simp [bytesFromHex]
  | case3 c1 c2 rest ih =>
    simp only [bytesFromHex, List.length_cons, ih]
    omega

/-- C3: `parse_key` yields exactly 32 bytes whenever it succeeds; it succeeds
exactly when the trimmed input is a 64-character all-hex string (tried first)
or base64 text decoding to exactly 32 bytes; otherwise its error reports the
character length of the trimmed input. -/
theorem parse_key_spec (s : List Char) :
    (∀ k, parse_key s = .ok k → k.length = 32) ∧
    ((∃ k, parse_key s = .ok k) ↔
      (((pyStrip s).length = 64 ∧ ∀ c ∈ pyStrip s, isHexChar c = true) ∨
       (∃ b, b64decode (pyStrip s) = some b ∧ b.length = 32))) ∧
    (∀ e, parse_key s = .error e → e = (pyStrip s).length) := by
  by_cases hhex : ((pyStrip s).length == KEY_LENGTH * 2 && (pyStrip s).all isHexChar) = true
  · have hp : parse_key s = .ok (bytesFromHex (pyStrip s)) := by
      simp only [parse_key, hhex, if_true]
    have hhex2 := hhex
    rw [Bool.and_eq_true] at hhex2
    obtain ⟨hlenb, hallb⟩ := hhex2
    have hlen : (pyStrip s).length = 64 := by
      have h64 : (pyStrip s).length = KEY_LENGTH * 2 := beq_iff_eq.mp hlenb
      simpa [KEY_LENGTH] using h64
    refine ⟨?_, ?_, ?_⟩
    · intro k hk
      rw [hp] at hk
      cases hk
      rw [bytesFromHex_length, hlen]
    · constructor
      · intro _
        exact Or.inl ⟨hlen, fun c hc => List.all_eq_true.mp hallb c hc⟩
      · intro _
        exact ⟨_, hp⟩
    · intro e he
      rw [hp] at he
      cases he
  · have hhexfalse : ¬(((pyStrip s).length = 64 ∧ ∀ c ∈ pyStrip s, isHexChar c = true)) := by
      rintro ⟨h1, h2⟩
      apply hhex
      rw [Bool.and_eq_true]
      refine ⟨?_, List.all_eq_true.mpr (fun c hc => h2 c hc)⟩
      have hk2 : KEY_LENGTH * 2 = 64 := rfl
      rw [hk2, h1]
      decide
    match hb : b64decode (pyStrip s) with
    | some b =>
      have hp : parse_key s =
          (if b.length == KEY_LENGTH then Except.ok b
           else Except.error (pyStrip s).length) := by
        simp only [parse_key]
        rw [if_neg hhex, hb]
      by_cases hlen : (b.length == KEY_LENGTH) = true
      · have hok : parse_key s = .ok b := by rw [hp, if_pos hlen]
        have hlen' : b.length = 32 := by
          have h32 : b.length = KEY_LENGTH := beq_iff_eq.mp hlen
          simpa [KEY_LENGTH] using h32
        refine ⟨?_, ?_, ?_⟩
        · intro k hk
          rw [hok] at hk
          cases hk
          exact hlen'
        · constructor
          · intro _
            exact Or.inr ⟨b, rfl, hlen'⟩
          · intro _
            exact ⟨b, hok⟩
        · intro e he
          rw [hok] at he
          cases he
      · have herr : parse_key s = .error (pyStrip s).length := by rw [hp, if_neg hlen]
        refine ⟨?_, ?_, ?_⟩
        · intro k hk
          rw [herr] at hk
          cases hk
        · constructor
          · intro ⟨k, hk⟩
            rw [herr] at hk
            cases hk
          · rintro (hleft | ⟨b', hb', hb32⟩)
            · exact absurd hleft hhexfalse
            · cases hb'
              refine absurd ?_ hlen
              rw [hb32]
              decide
        · intro e he
          rw [herr] at he
          cases he
          rfl
    | none =>
      have hp : parse_key s = .error (pyStrip s).length := by
        simp only [parse_key]
        rw [if_neg hhex, hb]
      refine ⟨?_, ?_, ?_⟩
      · intro k hk
        rw [hp] at hk
        cases hk
      · constructor
        · intro ⟨k, hk⟩
          rw [hp] at hk
          cases hk
        · rintro (hleft | ⟨b', hb', _⟩)
          · exact absurd hleft hhexfalse
          · cases hb'
      · intro e he
        rw [hp] at he
        cases he
        rfl

theorem parse_key_spec_witness :
    parse_key (List.replicate 64 '0') = .ok (List.replicate 32 0) ∧
    (List.replicate 32 (0 : Nat)).length = 32 :=
  ⟨rfl, (parse_key_spec (List.replicate 64 '0')).1 (List.replicate 32 0) rfl⟩

/-- C8 counterexample: an unresolved name is appended on every occurrence, so
`${B} ${B}` with an empty environment records `B` twice — not "exactly once". -/
theorem substitute_placeholders_records_duplicates :
    (substitute_placeholders "${B} ${B}".toList []).2 = [['B'], ['B']] ∧
    ((substitute_placeholders "${B} ${B}".toList []).2).count ['B'] ≠ 1 :=
  ⟨by decide, by decide⟩

/-- C8 (amended): every `${NAME}` match with `NAME` a key of `env` is replaced by
its value; a match with `NAME` absent is left completely untouched and `NAME` is
appended to the unresolved list once per occurrence, in occurrence order
(duplicates included); text without placeholders passes through unchanged. -/
theorem substitute_placeholders_spec (env : List (List Char × List Char))
    (name s : List Char) (h : validName name = true) :
    (∀ v, lookupEnv env name = some v →
      substitute_placeholders (mkPlaceholder name ++ s) env =
        (v ++ (substitute_placeholders s env).1, (substitute_placeholders s env).2)) ∧
    (lookupEnv env name = none →
      substitute_placeholders (mkPlaceholder name ++ s) env =
        (mkPlaceholder name ++ (substitute_placeholders s env).1,
          name :: (substitute_placeholders s env).2)) ∧
    (∀ pre, (∀ c ∈ pre, c ≠ '$') →
      substitute_placeholders (pre ++ s) env =
        (pre ++ (substitute_placeholders s env).1, (substitute_placeholders s env).2)) := by
  have hmatch := matchPlaceholderAt_build name s h
  refine ⟨?_, ?_, ?_⟩
  · intro v hv
    rw [subst_eq_of_match hmatch, hv]
  · intro hv
    rw [subst_eq_of_match hmatch, hv]
  · intro pre
    induction pre with
    | nil =>
      intro _
      simp
    | cons a l ih =>
      intro hpre
      have ha : a ≠ '$' := hpre a (by simp)
      rw [List.cons_append, subst_cons_nomatch (matchPlaceholderAt_none_of_head_ne _ ha),
        ih (fun c hc => hpre c (by simp [hc]))]
      rfl

theorem substitute_placeholders_spec_witness :
    substitute_placeholders (mkPlaceholder ['N'] ++ ['!']) [(['N'], ['W'])] =
      (['W'] ++ (substitute_placeholders ['!'] [(['N'], ['W'])]).1,
        (substitute_placeholders ['!'] [(['N'], ['W'])]).2) ∧
    substitute_placeholders (mkPlaceholder ['B'] ++ ['!']) [] =
      (mkPlaceholder ['B'] ++ (substitute_placeholders ['!'] []).1,
        ['B'] :: (substitute_placeholders ['!'] []).2) :=
  ⟨(substitute_placeholders_spec [(['N'], ['W'])] ['N'] ['!'] (by decide)).1 ['W'] (by decide),
   (substitute_placeholders_spec [] ['B'] ['!'] (by decide)).2.1 (by decide)⟩

/-- The test-only encrypt helper of `test_utils.py`:
`<encrypted v="1">BASE64(nonce || AESGCM(key).encrypt(nonce, P.encode(), None))</encrypted>`. -/
def encrypt_value (aead : AeadCipher) (key nonce : List Nat) (plaintext : List Char) :
    List Char :=
  mkVersionedTag ENCRYPTION_VERSION
    (b64encode (nonce ++ aead.enc key nonce (utf8encode plaintext)))

theorem b64encode_payload_clean (bs : List Nat) (h : ∀ b ∈ bs, b < 256) :
    ∀ c ∈ b64encode bs, (c != '<') = true := by
  intro c hc
  rcases b64encode_chars bs h c hc with ⟨_, hb | hb⟩
  · rw [bne_iff_ne]
    intro heq
    rw [heq] at hb
    exact absurd hb (by decide)
  · rw [hb]
    decide

/-- C1: for every 32-byte key, 12-byte nonce and plaintext, decrypting the tag
built by the test-only encrypt helper recovers the plaintext, given the AEAD
round-trip contract of the external AES-GCM cipher at that point. -/
theorem decrypt_value_encrypt_value_roundtrip (aead : AeadCipher) (key nonce : List Nat)
    (plaintext : List Char)
    (_hkey : key.length = 32) (hnonce : nonce.length = 12)
    (hnb : ∀ b ∈ nonce, b < 256)
    (hcb : ∀ b ∈ aead.enc key nonce (utf8encode plaintext), b < 256)
    (hdec : aead.dec key nonce (aead.enc key nonce (utf8encode plaintext)) =
      some (utf8encode plaintext)) :
    decrypt_value true aead key (encrypt_value aead key nonce plaintext) = .ok plaintext := by
  have hcomb : ∀ b ∈ nonce ++ aead.enc key nonce (utf8encode plaintext), b < 256 := by
    intro b hb
    rcases List.mem_append.mp hb with hm | hm
    · exact hnb b hm
    · exact hcb b hm
  have hclean := b64encode_payload_clean _ hcomb
  rw [encrypt_value,
    decrypt_value_mkTag aead key ENCRYPTION_VERSION _ (by decide) (by decide) hclean]
  rw [if_neg (by simp)]
  simp only [b64decode_b64encode _ hcomb]
  have hN : NONCE_LENGTH = 12 := rfl
  rw [hN, if_neg (by rw [List.length_append, hnonce]; omega)]
  rw [List.take_left' hnonce, List.drop_left' hnonce]
  simp only [hdec, utf8decode_utf8encode]

theorem decrypt_value_encrypt_value_roundtrip_witness :
    decrypt_value true trivAead (List.replicate 32 0)
        (encrypt_value trivAead (List.replicate 32 0) (List.replicate 12 0) ['h', 'i']) =
      .ok ['h', 'i'] :=
  decrypt_value_encrypt_value_roundtrip trivAead (List.replicate 32 0) (List.replicate 12 0)
    ['h', 'i'] (by decide) (by decide) (by decide) (by decide) (by decide)
